import Mathlib

/-!
# Verification of the LunaTV storage layer

Shallow embedding of the storage abstraction of the LunaTV repository:
the PostgreSQL-backed store (`src/lib/postgres.db.ts`) and the hybrid
cache/persistence composition (`src/lib/hybrid.db.ts`), together with
proofs of the specified properties (credential codec, retry policy,
search-history bound, upsert semantics, cache-aside behaviour).
-/

namespace LunaTV

/-! ## JavaScript string helpers

`String.prototype.split(sep)` with a single-character separator,
`String.prototype.startsWith`, `parseInt` on digit strings and
`Array.prototype.join(':')`, modelled on `List Char` / `String`.
-/

/-- `s.split(sep)` for a one-character separator: accumulator-passing
translation of the JS split loop. -/
def jsSplitAux (sep : Char) : List Char → List Char → List (List Char)
  | [], acc => [acc.reverse]
  | c :: rest, acc =>
      if c = sep then acc.reverse :: jsSplitAux sep rest []
      else jsSplitAux sep rest (c :: acc)

/-- `s.split(sep)` on the character list of `s`. -/
def jsSplit (sep : Char) (s : List Char) : List (List Char) :=
  jsSplitAux sep s []

/-- `s.startsWith(pat)`: the first argument is the pattern. -/
def startsWithL : List Char → List Char → Bool
  | [], _ => true
  | _ :: _, [] => false
  | p :: ps, c :: cs => p == c && startsWithL ps cs

/-- `parseInt` restricted to all-digit strings (the only inputs the code
feeds it). -/
def parseIntChars (l : List Char) : Nat :=
  l.foldl (fun acc c => acc * 10 + (c.toNat - 48)) 0

/-- `keys.join(':')` as used by `getCacheKey`. -/
def joinColon : List String → String
  | [] => ""
  | [k] => k
  | k :: rest => k ++ ":" ++ joinColon rest

/-! ### Lemmas about `jsSplit` -/

theorem jsSplitAux_no_sep (sep : Char) (l acc : List Char) (h : sep ∉ l) :
    jsSplitAux sep l acc = [acc.reverse ++ l] := by
  induction l generalizing acc with
  | nil => simp [jsSplitAux]
  | cons c rest ih =>
      have hc : c ≠ sep := fun hcs => h (hcs ▸ List.mem_cons_self c rest)
      have hrest : sep ∉ rest := fun hm => h (List.mem_cons_of_mem c hm)
      simp [jsSplitAux, hc, ih _ hrest]

theorem jsSplitAux_append (sep : Char) (l1 l2 acc : List Char) (h : sep ∉ l1) :
    jsSplitAux sep (l1 ++ sep :: l2) acc =
      (acc.reverse ++ l1) :: jsSplitAux sep l2 [] := by
  induction l1 generalizing acc with
  | nil => simp [jsSplitAux]
  | cons c rest ih =>
      have hc : c ≠ sep := fun hcs => h (hcs ▸ List.mem_cons_self c rest)
      have hrest : sep ∉ rest := fun hm => h (List.mem_cons_of_mem c hm)
      simp [jsSplitAux, hc, ih _ hrest]

theorem jsSplit_no_sep (sep : Char) (l : List Char) (h : sep ∉ l) :
    jsSplit sep l = [l] := by
  simp [jsSplit, jsSplitAux_no_sep sep l [] h]

theorem jsSplit_append (sep : Char) (l1 l2 : List Char) (h : sep ∉ l1) :
    jsSplit sep (l1 ++ sep :: l2) = l1 :: jsSplit sep l2 := by
  simp [jsSplit, jsSplitAux_append sep l1 l2 [] h]

theorem startsWithL_append (p r : List Char) : startsWithL p (p ++ r) = true := by
  induction p with
  | nil => simp [startsWithL]
  | cons c cs ih => simp [startsWithL, ih]

/-! ## Hex encoding (`Buffer.toString('hex')` / `Buffer.from(key, 'hex')`) -/

/-- One hex digit, lowercase, as produced by Node's hex encoding. -/
def hexDigit (n : Nat) : Char :=
  if n < 10 then Char.ofNat (48 + n) else Char.ofNat (87 + n)

/-- Two hex characters of one byte. -/
def hexByte (b : Nat) : List Char :=
  [hexDigit (b / 16), hexDigit (b % 16)]

/-- `buf.toString('hex')` on a byte list. -/
def hexEncode (bs : List Nat) : List Char :=
  (bs.map hexByte).flatten

/-- Numeric value of a lowercase hex character. -/
def hexDigitVal (c : Char) : Nat :=
  if 97 ≤ c.toNat then c.toNat - 87 else c.toNat - 48

/-- `Buffer.from(s, 'hex')`: decode pairs of hex characters. -/
def hexDecode : List Char → List Nat
  | c1 :: c2 :: rest => (16 * hexDigitVal c1 + hexDigitVal c2) :: hexDecode rest
  | _ => []

theorem hexDigitVal_hexDigit (n : Nat) (h : n < 16) :
    hexDigitVal (hexDigit n) = n := by
  revert n h
  decide

theorem hexDigit_ne_dollar (n : Nat) (h : n < 16) : hexDigit n ≠ '$' := by
  revert n h
  decide

theorem hexDecode_hexEncode (bs : List Nat) (h : ∀ b ∈ bs, b < 256) :
    hexDecode (hexEncode bs) = bs := by
  induction bs with
  | nil => simp [hexEncode, hexDecode]
  | cons b rest ih =>
      have hb : b < 256 := h b (List.mem_cons_self b rest)
      have hdiv : b / 16 < 16 := Nat.div_lt_of_lt_mul (by omega)
      have hmod : b % 16 < 16 := Nat.mod_lt _ (by omega)
      have hrest : ∀ x ∈ rest, x < 256 := fun x hx => h x (List.mem_cons_of_mem b hx)
      simp only [hexEncode, List.map_cons, List.flatten_cons, hexByte, List.cons_append,
        List.nil_append, hexDecode]
      rw [hexDigitVal_hexDigit _ hdiv, hexDigitVal_hexDigit _ hmod]
      have hb' : 16 * (b / 16) + b % 16 = b := by omega
      rw [hb']
      congr 1
      simpa [hexEncode] using ih hrest

theorem dollar_not_mem_hexEncode (bs : List Nat) (h : ∀ b ∈ bs, b < 256) :
    '$' ∉ hexEncode bs := by
  induction bs with
  | nil => simp [hexEncode]
  | cons b rest ih =>
      have hb : b < 256 := h b (List.mem_cons_self b rest)
      have hdiv : b / 16 < 16 := Nat.div_lt_of_lt_mul (by omega)
      have hmod : b % 16 < 16 := Nat.mod_lt _ (by omega)
      have hrest : ∀ x ∈ rest, x < 256 := fun x hx => h x (List.mem_cons_of_mem b hx)
      intro hmem
      simp only [hexEncode, List.map_cons, List.flatten_cons, hexByte, List.cons_append,
        List.nil_append, List.mem_cons] at hmem
      rcases hmem with h1 | h2 | h3
      · exact hexDigit_ne_dollar _ hdiv h1.symm
      · exact hexDigit_ne_dollar _ hmod h2.symm
      · exact ih hrest (by simpa [hexEncode] using h3)

theorem length_hexEncode (bs : List Nat) : (hexEncode bs).length = 2 * bs.length := by
  induction bs with
  | nil => simp [hexEncode]
  | cons b rest ih =>
      simp only [hexEncode, List.map_cons, List.flatten_cons, hexByte] at ih ⊢
      simp [List.length_append] at ih ⊢
      omega

/-! ## Credential codec (`PostgresStorage.hashPassword` / `verifyPassword`)

The key-derivation function `pbkdf2(password, salt, iterations, keyLength,
'sha512')` is kept abstract as a parameter
`kdf : password → salt → iterations → keyLength → derived key bytes`;
everything around it (salt/iteration/key-length handling, hex encoding,
the `pbkdf2$…` record format, `timingSafeEqual`, the legacy plaintext
branch) is translated from the source.
-/

/-- `const iterations = 100000` in `hashPassword`. -/
def iterationsConst : Nat := 100000

/-- `const keyLength = 64` in `hashPassword`. -/
def keyLengthConst : Nat := 64

/-- `hashPassword`: derive a key from password and salt and encode
`pbkdf2$<iterations>$<salt>$<derived-key-hex>`. The random salt is a
parameter (the code draws it from `randomBytes(32).toString('hex')`). -/
def hashPassword (kdf : List Char → List Char → Nat → Nat → List Nat)
    (password salt : List Char) : List Char :=
  "pbkdf2$".data ++ (toString iterationsConst).data ++ "$".data ++ salt ++ "$".data
    ++ hexEncode (kdf password salt iterationsConst keyLengthConst)

/-- `crypto.timingSafeEqual`: `none` models the exception thrown on
buffers of different length, otherwise content equality. -/
def timingSafeEqual (a b : List Nat) : Option Bool :=
  if a.length = b.length then some (a == b) else none

/-- `verifyPassword`: on a `pbkdf2$`-prefixed record, split on `$`,
re-derive with the stored salt and iteration count and key length
`key.length / 2`, and compare in constant time; otherwise compare the
stored value with the password directly (legacy plaintext).  `none`
models a thrown error (malformed record). -/
def verifyPassword (kdf : List Char → List Char → Nat → Nat → List Nat)
    (password hash : List Char) : Option Bool :=
  if startsWithL "pbkdf2$".data hash then
    match jsSplit '$' hash with
    | _ :: its :: salt :: key :: _ =>
        timingSafeEqual (kdf password salt (parseIntChars its) (key.length / 2))
          (hexDecode key)
    | _ => none
  else some (hash == password)

theorem toString_iterations :
    (toString (100000 : Nat)).data = ['1', '0', '0', '0', '0', '0'] := by
  decide

theorem hashPassword_eq (kdf : List Char → List Char → Nat → Nat → List Nat)
    (password salt : List Char) :
    hashPassword kdf password salt =
      "pbkdf2".data ++ '$' ::
        ("100000".data ++ '$' ::
          (salt ++ '$' :: hexEncode (kdf password salt 100000 64))) := by
  have h2 : "pbkdf2$".data = "pbkdf2".data ++ ['$'] := by decide
  have h3 : "$".data = ['$'] := by decide
  simp [hashPassword, toString_iterations, h2, h3, iterationsConst, keyLengthConst,
    List.append_assoc, List.singleton_append]

theorem startsWith_hashPassword (kdf : List Char → List Char → Nat → Nat → List Nat)
    (password salt : List Char) :
    startsWithL "pbkdf2$".data (hashPassword kdf password salt) = true := by
  unfold hashPassword
  simp only [List.append_assoc]
  exact startsWithL_append _ _

theorem jsSplit_hashPassword (kdf : List Char → List Char → Nat → Nat → List Nat)
    (P salt : List Char) (hsalt : '$' ∉ salt)
    (hbytes : ∀ b ∈ kdf P salt 100000 64, b < 256) :
    jsSplit '$' (hashPassword kdf P salt) =
      ["pbkdf2".data, "100000".data, salt, hexEncode (kdf P salt 100000 64)] := by
  rw [hashPassword_eq]
  rw [jsSplit_append '$' _ _ (by decide)]
  rw [jsSplit_append '$' _ _ (by decide)]
  rw [jsSplit_append '$' _ _ hsalt]
  rw [jsSplit_no_sep '$' _ (dollar_not_mem_hexEncode _ hbytes)]

theorem parseIntChars_100000 :
    parseIntChars ['1', '0', '0', '0', '0', '0'] = 100000 := by decide

/-- C4: verifying a password against its own freshly produced hash
succeeds; verifying a different password fails whenever the derived keys
differ (distinctness of the derived keys models PBKDF2's collision
resistance at these inputs); the stored record is encoded as
`pbkdf2$<iterations>$<salt-hex>$<derived-key-hex>` with 100000
iterations and a 64-byte derived key. -/
theorem credential_roundtrip (kdf : List Char → List Char → Nat → Nat → List Nat)
    (hlen : ∀ p s it n, (kdf p s it n).length = n)
    (hbytes : ∀ p s it n b, b ∈ kdf p s it n → b < 256)
    (P P2 salt : List Char) (hsalt : '$' ∉ salt)
    (hne : kdf P2 salt 100000 64 ≠ kdf P salt 100000 64) :
    verifyPassword kdf P (hashPassword kdf P salt) = some true
    ∧ verifyPassword kdf P2 (hashPassword kdf P salt) = some false
    ∧ hashPassword kdf P salt =
        "pbkdf2$".data ++ "100000".data ++ "$".data ++ salt ++ "$".data
          ++ hexEncode (kdf P salt 100000 64)
    ∧ (kdf P salt 100000 64).length = 64 := by
  have hb : ∀ b ∈ kdf P salt 100000 64, b < 256 :=
    fun b hbm => hbytes P salt 100000 64 b hbm
  have hsplit := jsSplit_hashPassword kdf P salt hsalt hb
  have hsw := startsWith_hashPassword kdf P salt
  have hkeylen : (hexEncode (kdf P salt 100000 64)).length / 2 = 64 := by
    rw [length_hexEncode, hlen]
  have hdec : hexDecode (hexEncode (kdf P salt 100000 64)) = kdf P salt 100000 64 :=
    hexDecode_hexEncode _ hb
  refine ⟨?_, ?_, ?_, hlen P salt 100000 64⟩
  · simp only [verifyPassword, hsw, if_true, hsplit, hkeylen, hdec]
    simp [parseIntChars_100000, timingSafeEqual]
  · simp only [verifyPassword, hsw, if_true, hsplit, hkeylen, hdec]
    simp only [parseIntChars_100000, timingSafeEqual, hlen, if_pos rfl]
    simp [hne]
  · simp [hashPassword, toString_iterations, iterationsConst, keyLengthConst]

/-- Derived-key model used to instantiate the credential theorems on
concrete inputs. -/
def wkdf (p : List Char) (_s : List Char) (_it n : Nat) : List Nat :=
  List.replicate n (p.length % 256)

theorem credential_roundtrip_witness :
    verifyPassword wkdf "a".data (hashPassword wkdf "a".data "ab".data) = some true
    ∧ verifyPassword wkdf "bc".data (hashPassword wkdf "a".data "ab".data) = some false :=
  have hlen : ∀ p s it n, (wkdf p s it n).length = n := by
    intro p s it n; simp [wkdf]
  have hbytes : ∀ p s it n b, b ∈ wkdf p s it n → b < 256 := by
    intro p s it n b hbm
    rcases List.eq_of_mem_replicate hbm with rfl
    exact Nat.mod_lt _ (by omega)
  have h := credential_roundtrip wkdf hlen hbytes "a".data "bc".data "ab".data
    (by decide) (by decide)
  ⟨h.1, h.2.1⟩

/-- C9: a stored credential that does not begin with `pbkdf2$` is
treated as a legacy plaintext password: verification succeeds exactly
when the supplied password equals the stored value. -/
theorem legacy_plaintext_verify (kdf : List Char → List Char → Nat → Nat → List Nat)
    (password hash : List Char)
    (h : startsWithL "pbkdf2$".data hash = false) :
    verifyPassword kdf password hash = some (hash == password)
    ∧ (verifyPassword kdf password hash = some true ↔ hash = password) := by
  constructor
  · simp [verifyPassword, h]
  · simp [verifyPassword, h]

theorem legacy_plaintext_verify_witness :
    (verifyPassword wkdf "secret".data "secret".data = some true ↔
      "secret".data = "secret".data)
    ∧ verifyPassword wkdf "secret".data "other".data =
        some ("other".data == "secret".data) :=
  ⟨(legacy_plaintext_verify wkdf "secret".data "secret".data (by decide)).2,
   (legacy_plaintext_verify wkdf "secret".data "other".data (by decide)).1⟩

/-! ## Retry wrapper (`withRetry` in `postgres.db.ts`)

The operation is modelled as a function from the attempt index to a
result; the wrapper's observable behaviour is the final result, the
number of invocations, and the list of backoff delays slept between
attempts.  `RetryError.exhausted` models the unreachable
`throw new Error('重试次数已用完')` after the loop.
-/

/-- Error surfaced by `withRetry`: either an error thrown by the wrapped
operation (rethrown unchanged), or the post-loop exhaustion error. -/
inductive RetryError (E : Type) where
  | opErr : E → RetryError E
  | exhausted : RetryError E

/-- Observable outcome of a `withRetry` run. -/
structure RetryOutcome (E A : Type) where
  result : Except (RetryError E) A
  calls : Nat
  delays : List Nat

/-- The `for (let i = 0; i < maxRetries; i++)` loop of `withRetry`,
with `fuel = maxRetries - i` making the recursion structural. -/
def withRetryLoop (op : Nat → Except E A) (maxRetries delay : Nat) :
    Nat → Nat → RetryOutcome E A
  | _, 0 => ⟨.error .exhausted, 0, []⟩
  | i, fuel + 1 =>
    match op i with
    | .ok a => ⟨.ok a, 1, []⟩
    | .error e =>
        if i = maxRetries - 1 then ⟨.error (.opErr e), 1, []⟩
        else
          let rest := withRetryLoop op maxRetries delay (i + 1) fuel
          ⟨rest.result, rest.calls + 1, delay * 2 ^ i :: rest.delays⟩

/-- `withRetry(operation, maxRetries = 3, delay = 1000)`. -/
def withRetry (op : Nat → Except E A) (maxRetries : Nat := 3)
    (delay : Nat := 1000) : RetryOutcome E A :=
  withRetryLoop op maxRetries delay 0 maxRetries

/-- The exponential-backoff delays `delay * 2^i, i = start, …, start+k-1`. -/
def backoffDelays (d : Nat) : Nat → Nat → List Nat
  | _, 0 => []
  | i, k + 1 => d * 2 ^ i :: backoffDelays d (i + 1) k

theorem backoffDelays_eq (d : Nat) :
    ∀ k i, backoffDelays d i k = (List.range k).map (fun j => d * 2 ^ (i + j)) := by
  intro k
  induction k with
  | zero => intro i; simp [backoffDelays]
  | succ k ih =>
      intro i
      simp only [backoffDelays, List.range_succ_eq_map, List.map_cons, List.map_map, ih]
      refine congrArg₂ List.cons (by simp) ?_
      refine congrArg₂ List.map ?_ rfl
      funext j
      have : i + (j + 1) = i + 1 + j := by omega
      simp [Function.comp, Nat.succ_eq_add_one, this]

theorem withRetryLoop_all_fail (op : Nat → Except E A) (errs : Nat → E)
    (hop : ∀ j, op j = .error (errs j)) (m d : Nat) :
    ∀ fuel i, 1 ≤ fuel → i + fuel = m →
      withRetryLoop op m d i fuel =
        ⟨.error (.opErr (errs (m - 1))), fuel, backoffDelays d i (fuel - 1)⟩ := by
  intro fuel
  induction fuel with
  | zero => intro i h1 _; omega
  | succ fuel ih =>
      intro i _ hm
      cases fuel with
      | zero =>
          have hi : i = m - 1 := by omega
          subst hi
          rw [withRetryLoop.eq_def]
          simp [hop, backoffDelays]
      | succ fuel' =>
          have hi : ¬ i = m - 1 := by omega
          have hrest := ih (i + 1) (by omega) (by omega)
          rw [withRetryLoop.eq_def]
          simp only [hop i, hi, if_false, hrest]
          simp [backoffDelays]

/-- C3: an operation failing on every attempt is invoked exactly
`maxRetries` times, the delay slept after the `i`-th failed attempt is
`delay * 2^i` for `i = 0, …, maxRetries - 2`, and the error of the last
attempt is surfaced unchanged. -/
theorem withRetry_all_fail {E A : Type} (op : Nat → Except E A) (errs : Nat → E)
    (hop : ∀ j, op j = Except.error (errs j)) (n d : Nat) (hn : 1 ≤ n) :
    withRetry op n d =
      ⟨Except.error (RetryError.opErr (errs (n - 1))), n,
        (List.range (n - 1)).map (fun i => d * 2 ^ i)⟩ := by
  have h := withRetryLoop_all_fail op errs hop n d n 0 hn (by omega)
  rw [withRetry, h, backoffDelays_eq]
  simp

theorem withRetry_all_fail_witness :
    withRetry (fun i => (Except.error i : Except Nat Unit)) 3 1000 =
      ⟨Except.error (RetryError.opErr 2), 3, [1000, 2000]⟩ := by
  have h := withRetry_all_fail (fun i => (Except.error i : Except Nat Unit))
    (fun i => i) (fun _ => rfl) 3 1000 (by omega)
  simpa [List.range] using h

/-! ## Search history (`PostgresStorage.addSearchHistory` / `getSearchHistory` /
`deleteSearchHistory`)

The `search_history` table is a list of `(username, keyword)` rows held
newest-first (`created_at DESC` with strictly increasing insert times).
`addSearchHistory` deletes the user's rows with the same keyword, inserts
the new row, then deletes the user's rows beyond the 20 most recent
(`id NOT IN (SELECT id … ORDER BY created_at DESC LIMIT 20)`).
-/

/-- A `search_history` row: `(username, keyword)`, list held newest-first. -/
abbrev SHRow := String × String

/-- `DELETE FROM search_history WHERE username = $1 AND keyword = $2`. -/
def shDeleteKeyword (u kw : String) (t : List SHRow) : List SHRow :=
  t.filter (fun r => !(r.1 == u && r.2 == kw))

/-- `DELETE … WHERE username = u AND id NOT IN (20 most recent ids of u)`:
keep the first `n` rows of user `u` (newest-first), drop the rest, leave
other users' rows alone. -/
def trimUser (u : String) : Nat → List SHRow → List SHRow
  | _, [] => []
  | 0, r :: rest => if r.1 == u then trimUser u 0 rest else r :: trimUser u 0 rest
  | n + 1, r :: rest =>
      if r.1 == u then r :: trimUser u n rest else r :: trimUser u (n + 1) rest

/-- `addSearchHistory`: delete same keyword, insert newest, trim to 20. -/
def addSearchHistory (t : List SHRow) (u kw : String) : List SHRow :=
  trimUser u 20 ((u, kw) :: shDeleteKeyword u kw t)

/-- The user's keywords, newest first (no limit). -/
def projKeywords (u : String) (t : List SHRow) : List String :=
  (t.filter (fun r => r.1 == u)).map Prod.snd

/-- `getSearchHistory`: `SELECT keyword … WHERE username = $1 ORDER BY
created_at DESC LIMIT 20`. -/
def getSearchHistory (t : List SHRow) (u : String) : List String :=
  (projKeywords u t).take 20

theorem projKeywords_trimUser (u : String) (t : List SHRow) :
    ∀ n, projKeywords u (trimUser u n t) = (projKeywords u t).take n := by
  induction t with
  | nil => intro n; simp [projKeywords, trimUser]
  | cons r rest ih =>
      intro n
      by_cases hu : r.1 = u
      · cases n with
        | zero => simp [trimUser, projKeywords, hu] at ih ⊢; simpa using ih 0
        | succ n => simp [trimUser, projKeywords, hu] at ih ⊢; simpa using ih n
      · cases n with
        | zero => simp [trimUser, projKeywords, hu] at ih ⊢; simpa using ih 0
        | succ n => simp [trimUser, projKeywords, hu] at ih ⊢; simpa using ih (n + 1)

theorem projKeywords_shDeleteKeyword (u kw : String) (t : List SHRow) :
    projKeywords u (shDeleteKeyword u kw t) =
      (projKeywords u t).filter (fun x => !(x == kw)) := by
  induction t with
  | nil => simp [projKeywords, shDeleteKeyword]
  | cons r rest ih =>
      by_cases hu : r.1 = u
      · by_cases hk : r.2 = kw
        · simp [projKeywords, shDeleteKeyword, hu, hk] at ih ⊢; simpa using ih
        · simp [projKeywords, shDeleteKeyword, hu, hk] at ih ⊢; simpa using ih
      · simp [projKeywords, shDeleteKeyword, hu] at ih ⊢; simpa using ih

theorem projKeywords_addSearchHistory (u kw : String) (t : List SHRow) :
    projKeywords u (addSearchHistory t u kw) =
      (kw :: (projKeywords u t).filter (fun x => !(x == kw))).take 20 := by
  rw [addSearchHistory, projKeywords_trimUser]
  have h1 : projKeywords u ((u, kw) :: shDeleteKeyword u kw t) =
      kw :: projKeywords u (shDeleteKeyword u kw t) := by
    simp [projKeywords]
  rw [h1, projKeywords_shDeleteKeyword]

theorem filter_ne_of_not_mem {kw : String} {l : List String} (h : kw ∉ l) :
    l.filter (fun x => !(x == kw)) = l := by
  induction l with
  | nil => rfl
  | cons x rest ih =>
      have hx : x ≠ kw := fun hxe => h (hxe ▸ List.mem_cons_self x rest)
      have hrest : kw ∉ rest := fun hm => h (List.mem_cons_of_mem x hm)
      simp [hx, ih hrest]

theorem length_filter_ne_of_nodup {kw : String} {l : List String}
    (hnd : l.Nodup) (hmem : kw ∈ l) :
    (l.filter (fun x => !(x == kw))).length + 1 = l.length := by
  induction l with
  | nil => cases hmem
  | cons x rest ih =>
      by_cases hx : x = kw
      · subst hx
        have hnot : x ∉ rest := (List.nodup_cons.mp hnd).1
        simp [List.filter_cons, filter_ne_of_not_mem hnot]
      · have hmem' : kw ∈ rest := by
          rcases List.mem_cons.mp hmem with h | h
          · exact absurd h.symm hx
          · exact h
        have h2 := ih (List.nodup_cons.mp hnd).2 hmem'
        simp only [List.filter_cons]
        simp [hx] at h2 ⊢
        omega

theorem foldl_addSearchHistory_fresh (u : String) (t : List SHRow)
    (hfresh : projKeywords u t = []) (ks : List String) (hnd : ks.Nodup) :
    projKeywords u (ks.foldl (fun acc k => addSearchHistory acc u k) t) =
      ks.reverse.take 20 := by
  induction ks using List.reverseRecOn with
  | nil => simpa using hfresh
  | append_singleton ks k ih =>
      have hnd' : ks.Nodup := hnd.of_append_left
      have hk : k ∉ ks := by
        intro hm
        have := List.disjoint_of_nodup_append hnd
        exact this hm (List.mem_singleton_self k)
      rw [List.foldl_concat, projKeywords_addSearchHistory, ih hnd']
      have hnm : k ∉ ks.reverse.take 20 := by
        intro hm
        exact hk (by simpa using List.take_subset 20 ks.reverse hm)
      rw [filter_ne_of_not_mem hnm]
      rw [List.reverse_append, List.reverse_singleton, List.singleton_append]
      have hstep : ∀ (x : String) (L : List String), (x :: L).take 20 = x :: L.take 19 :=
        fun x L => rfl
      rw [hstep, hstep, List.take_take]
      norm_num

/-- C2: search-history bound.  For any table `s`, `getSearchHistory`
returns at most 20 keywords (newest first by construction).  Adding 25
distinct keywords for a user with no prior history leaves exactly the
20 most recently added, most recent first.  Re-adding a keyword already
present moves it to the most-recent position without changing the
count. -/
theorem searchHistory_bound (s t t' : List SHRow) (u kw : String) (ks : List String)
    (hlen : ks.length = 25) (hnd : ks.Nodup) (hfresh : projKeywords u t = [])
    (hnd' : (projKeywords u t').Nodup) (hmem : kw ∈ projKeywords u t')
    (hle : (projKeywords u t').length ≤ 20) :
    (getSearchHistory s u).length ≤ 20
    ∧ getSearchHistory (ks.foldl (fun acc k => addSearchHistory acc u k) t) u
        = (ks.drop 5).reverse
    ∧ getSearchHistory (addSearchHistory t' u kw) u
        = kw :: (getSearchHistory t' u).filter (fun x => !(x == kw))
    ∧ (getSearchHistory (addSearchHistory t' u kw) u).length
        = (getSearchHistory t' u).length := by
  have hget : getSearchHistory t' u = projKeywords u t' :=
    List.take_of_length_le hle
  have hproj := projKeywords_addSearchHistory u kw t'
  have hflen := length_filter_ne_of_nodup hnd' hmem
  have hget2 : getSearchHistory (addSearchHistory t' u kw) u =
      kw :: (projKeywords u t').filter (fun x => !(x == kw)) := by
    rw [getSearchHistory, hproj]
    rw [List.take_take]
    have h20 : (kw :: (projKeywords u t').filter (fun x => !(x == kw))).length ≤ 20 := by
      simp only [List.length_cons]
      omega
    rw [Nat.min_self, List.take_of_length_le h20]
  refine ⟨?_, ?_, ?_, ?_⟩
  · exact List.length_take_le 20 _
  · rw [getSearchHistory, foldl_addSearchHistory_fresh u t hfresh ks hnd]
    rw [List.take_take, Nat.min_self]
    rw [List.take_reverse]
    rw [hlen]
  · rw [hget2, hget]
  · rw [hget2, hget]
    simp only [List.length_cons]
    omega

/-- 25 pairwise-distinct keywords for the witness. -/
def ksW : List String :=
  ["k00", "k01", "k02", "k03", "k04", "k05", "k06", "k07", "k08", "k09",
   "k10", "k11", "k12", "k13", "k14", "k15", "k16", "k17", "k18", "k19",
   "k20", "k21", "k22", "k23", "k24"]

theorem searchHistory_bound_witness :
    getSearchHistory (ksW.foldl (fun acc k => addSearchHistory acc "u" k) []) "u"
        = (ksW.drop 5).reverse
    ∧ getSearchHistory (addSearchHistory [("u", "w")] "u" "w") "u"
        = "w" :: (getSearchHistory [("u", "w")] "u").filter (fun x => !(x == "w")) := by
  have h := searchHistory_bound [] [] [("u", "w")] "u" "w" ksW
    (by decide) (by decide) (by decide) (by decide) (by decide) (by decide)
  exact ⟨h.2.1, h.2.2.1⟩

/-- JS truthiness of an optional string parameter: `undefined` and the
empty string are falsy. -/
def jsTruthy : Option String → Bool
  | none => false
  | some s => !(s == "")

/-- `deleteSearchHistory(userName, keyword?)`: `if (keyword)` delete the
user's rows with that keyword, else delete all the user's rows. -/
def deleteSearchHistory (t : List SHRow) (u : String) (keyword : Option String) :
    List SHRow :=
  if jsTruthy keyword then
    t.filter (fun r => !(r.1 == u && some r.2 == keyword))
  else
    t.filter (fun r => !(r.1 == u))

/-- C10: calling `deleteSearchHistory` with the empty string behaves
like omitting the keyword — the truthiness test sends `""` down the
delete-all branch, wiping the user's entire history rather than one
entry. -/
theorem deleteSearchHistory_empty_string (t : List SHRow) (u : String) :
    deleteSearchHistory t u (some "") = deleteSearchHistory t u none
    ∧ deleteSearchHistory t u (some "") = t.filter (fun r => !(r.1 == u))
    ∧ projKeywords u (deleteSearchHistory t u (some "")) = [] := by
  have hb : jsTruthy (some "") = false := by decide
  refine ⟨?_, ?_, ?_⟩
  · simp [deleteSearchHistory, hb, jsTruthy]
  · simp [deleteSearchHistory, hb]
  · simp [deleteSearchHistory, hb, projKeywords, List.filter_filter]

/-! ## Keyed-record upsert (`setFavorite` / `setPlayRecord` / `setSkipConfig`)

Each table holds rows `(key, payload)` with a `UNIQUE` constraint on the
key (`(username, source, item_id)`).  `INSERT … ON CONFLICT … DO UPDATE`
is the `upsert` below; the `UNIQUE` constraint is the `keysNodup`
invariant.  Payloads are the `JSON.stringify`-ed records.
-/

/-- `INSERT … ON CONFLICT (key) DO UPDATE SET payload = $4`: replace the
row with the same key if one exists, otherwise append a fresh row. -/
def upsert {K V : Type} [DecidableEq K] (rows : List (K × V)) (k : K) (v : V) :
    List (K × V) :=
  if rows.any (fun r => decide (r.1 = k)) then
    rows.map (fun r => if r.1 = k then (k, v) else r)
  else rows ++ [(k, v)]

/-- The `UNIQUE(username, source, item_id)` constraint: row keys are
pairwise distinct. -/
def keysNodup {K V : Type} (rows : List (K × V)) : Prop :=
  (rows.map Prod.fst).Nodup

/-- All rows stored under key `k` (a `SELECT … WHERE` on the key). -/
def filterKey {K V : Type} [DecidableEq K] (rows : List (K × V)) (k : K) :
    List (K × V) :=
  rows.filter (fun r => decide (r.1 = k))

theorem map_fst_map_replace {K V : Type} [DecidableEq K]
    (rows : List (K × V)) (k : K) (v : V) :
    (rows.map (fun r => if r.1 = k then (k, v) else r)).map Prod.fst
      = rows.map Prod.fst := by
  induction rows with
  | nil => rfl
  | cons r rest ih =>
      by_cases hr : r.1 = k
      · simp [hr, ih]
      · simp [hr, ih]

theorem filterKey_eq_nil {K V : Type} [DecidableEq K] {rows : List (K × V)} {k : K}
    (h : k ∉ rows.map Prod.fst) : filterKey rows k = [] := by
  induction rows with
  | nil => rfl
  | cons r rest ih =>
      simp only [List.map_cons, List.mem_cons, not_or] at h
      have hr : ¬ r.1 = k := fun hrk => h.1 hrk.symm
      simp only [filterKey, List.filter_cons, hr, decide_eq_true_eq] at ih ⊢
      simp [hr, ih h.2]

theorem filterKey_map_replace {K V : Type} [DecidableEq K]
    (rows : List (K × V)) (k : K) (v : V)
    (hnd : (rows.map Prod.fst).Nodup) (hmem : k ∈ rows.map Prod.fst) :
    filterKey (rows.map (fun r => if r.1 = k then (k, v) else r)) k = [(k, v)] := by
  induction rows with
  | nil => cases hmem
  | cons r rest ih =>
      simp only [List.map_cons, List.nodup_cons] at hnd
      by_cases hr : r.1 = k
      · have hnot : k ∉ rest.map Prod.fst := hr ▸ hnd.1
        have hrest : filterKey (rest.map (fun r => if r.1 = k then (k, v) else r)) k = [] := by
          apply filterKey_eq_nil
          rw [map_fst_map_replace]
          exact hnot
        simp only [List.map_cons, hr, if_pos rfl, filterKey, List.filter_cons] at hrest ⊢
        simp [hrest]
      · have hmem' : k ∈ rest.map Prod.fst := by
          rcases List.mem_cons.mp hmem with h | h
          · exact absurd h.symm hr
          · exact h
        have := ih hnd.2 hmem'
        simp only [List.map_cons, hr, if_neg hr, filterKey, List.filter_cons] at this ⊢
        simp [hr, this]

theorem filterKey_upsert {K V : Type} [DecidableEq K]
    (rows : List (K × V)) (k : K) (v : V) (hnd : keysNodup rows) :
    filterKey (upsert rows k v) k = [(k, v)] := by
  by_cases hany : rows.any (fun r => decide (r.1 = k)) = true
  · have hmem : k ∈ rows.map Prod.fst := by
      rcases List.any_eq_true.mp hany with ⟨r, hr, hrk⟩
      simp only [decide_eq_true_eq] at hrk
      exact hrk ▸ List.mem_map_of_mem Prod.fst hr
    rw [upsert, if_pos hany]
    exact filterKey_map_replace rows k v hnd hmem
  · have hnot : k ∉ rows.map Prod.fst := by
      intro hm
      rcases List.mem_map.mp hm with ⟨r, hr, hrk⟩
      exact hany (List.any_eq_true.mpr ⟨r, hr, by simp [hrk]⟩)
    rw [upsert, if_neg hany, filterKey, List.filter_append]
    have h1 : filterKey rows k = [] := filterKey_eq_nil hnot
    simp only [filterKey] at h1
    simp [h1]

theorem keysNodup_upsert {K V : Type} [DecidableEq K]
    (rows : List (K × V)) (k : K) (v : V) (hnd : keysNodup rows) :
    keysNodup (upsert rows k v) := by
  by_cases hany : rows.any (fun r => decide (r.1 = k)) = true
  · rw [upsert, if_pos hany]
    unfold keysNodup
    rw [map_fst_map_replace]
    exact hnd
  · have hnot : k ∉ rows.map Prod.fst := by
      intro hm
      rcases List.mem_map.mp hm with ⟨r, hr, hrk⟩
      exact hany (List.any_eq_true.mpr ⟨r, hr, by simp [hrk]⟩)
    rw [upsert, if_neg hany]
    unfold keysNodup at hnd ⊢
    simp only [List.map_append, List.map_cons, List.map_nil]
    rw [List.nodup_append]
    exact ⟨hnd, List.nodup_singleton k, by simpa using fun h => hnot h⟩

/-- Natural key of a favorite / play-record row: username plus the two
components of `key.split('+')` (`undefined`, i.e. `none`, when the part
is missing). -/
abbrev RecordKey := String × Option (List Char) × Option (List Char)

/-- `const [source, itemId] = key.split('+')`. -/
def splitKey (key : String) : Option (List Char) × Option (List Char) :=
  let parts := jsSplit '+' key.data
  (parts[0]?, parts[1]?)

/-- `setFavorite(userName, key, favorite)` on the `favorites` table. -/
def setFavorite (rows : List (RecordKey × String)) (userName key favorite : String) :
    List (RecordKey × String) :=
  upsert rows (userName, splitKey key) favorite

/-- `setPlayRecord(userName, key, record)` on the `play_records` table. -/
def setPlayRecord (rows : List (RecordKey × String)) (userName key record : String) :
    List (RecordKey × String) :=
  upsert rows (userName, splitKey key) record

/-- `setSkipConfig(userName, source, id, config)` on the `skip_configs`
table (source and id arrive unsplit). -/
def setSkipConfig (rows : List ((String × String × String) × String))
    (userName source id config : String) :
    List ((String × String × String) × String) :=
  upsert rows (userName, source, id) config

/-- C5: writing the same key twice with two payloads leaves exactly one
row for that key, holding the second payload, and preserves the
uniqueness constraint — for favorites, play records and skip configs. -/
theorem set_twice_single_record
    (favRows playRows : List (RecordKey × String))
    (skipRows : List ((String × String × String) × String))
    (u key src id p1 p2 q1 q2 r1 r2 : String)
    (h1 : keysNodup favRows) (h2 : keysNodup playRows) (h3 : keysNodup skipRows) :
    filterKey (setFavorite (setFavorite favRows u key p1) u key p2)
        (u, splitKey key) = [((u, splitKey key), p2)]
    ∧ filterKey (setPlayRecord (setPlayRecord playRows u key q1) u key q2)
        (u, splitKey key) = [((u, splitKey key), q2)]
    ∧ filterKey (setSkipConfig (setSkipConfig skipRows u src id r1) u src id r2)
        (u, src, id) = [((u, src, id), r2)]
    ∧ keysNodup (setFavorite (setFavorite favRows u key p1) u key p2)
    ∧ keysNodup (setPlayRecord (setPlayRecord playRows u key q1) u key q2)
    ∧ keysNodup (setSkipConfig (setSkipConfig skipRows u src id r1) u src id r2) := by
  refine ⟨?_, ?_, ?_, ?_, ?_, ?_⟩
  · exact filterKey_upsert _ _ _ (keysNodup_upsert _ _ _ h1)
  · exact filterKey_upsert _ _ _ (keysNodup_upsert _ _ _ h2)
  · exact filterKey_upsert _ _ _ (keysNodup_upsert _ _ _ h3)
  · exact keysNodup_upsert _ _ _ (keysNodup_upsert _ _ _ h1)
  · exact keysNodup_upsert _ _ _ (keysNodup_upsert _ _ _ h2)
  · exact keysNodup_upsert _ _ _ (keysNodup_upsert _ _ _ h3)

theorem set_twice_single_record_witness :
    filterKey (setFavorite (setFavorite [] "alice" "srcA+42" "{f1}") "alice" "srcA+42" "{f2}")
        ("alice", splitKey "srcA+42") = [(("alice", splitKey "srcA+42"), "{f2}")]
    ∧ filterKey (setSkipConfig (setSkipConfig [] "alice" "srcA" "42" "{s1}")
        "alice" "srcA" "42" "{s2}")
        ("alice", "srcA", "42") = [(("alice", "srcA", "42"), "{s2}")] := by
  have h := set_twice_single_record [] [] [] "alice" "srcA+42" "srcA" "42"
    "{f1}" "{f2}" "{p1}" "{p2}" "{s1}" "{s2}"
    (by simp [keysNodup]) (by simp [keysNodup]) (by simp [keysNodup])
  exact ⟨h.1, h.2.2.1⟩

/-! ## HybridStorage cache management (`hybrid.db.ts`)

Write paths are modelled as the list of effects they perform, in order;
cache reads/writes are modelled with explicit backend results so that
the catch-and-absorb behaviour is visible.
-/

/-- `getCacheKey(prefix, ...keys)`: `cache:<prefix>:<keys.join(':')>`. -/
def getCacheKey (p : String) (keys : List String) : String :=
  "cache:" ++ p ++ ":" ++ joinColon keys

/-- An effect performed by a `HybridStorage` method, in program order. -/
inductive HybridOp where
  | pgSetUserInfo (userName : String)
  | pgSetAdminConfig
  | pgDeleteUser (userName : String)
  | cacheSet (key : String) (ttl : Nat)
  | cacheDel (key : String)
  | redisDeleteUser (userName : String)
deriving DecidableEq

/-- Effect trace of `HybridStorage.setUserInfo`: the PostgreSQL update,
then (when caching is enabled, the default) `setToCache(cache:userinfo:<u>,
userInfo, 3600)`.  A cache op runs only after the awaited relational
write succeeded. -/
def setUserInfoOps (cacheEnabled : Bool) (userName : String) : List HybridOp :=
  [HybridOp.pgSetUserInfo userName]
    ++ (if cacheEnabled then
          [HybridOp.cacheSet (getCacheKey "userinfo" [userName]) 3600]
        else [])

/-- Effect trace of `HybridStorage.setAdminConfig`: the PostgreSQL write,
then `setToCache(cache:admin:config, config, 1800)`. -/
def setAdminConfigOps (cacheEnabled : Bool) : List HybridOp :=
  [HybridOp.pgSetAdminConfig]
    ++ (if cacheEnabled then
          [HybridOp.cacheSet (getCacheKey "admin" ["config"]) 1800]
        else [])

/-- Is the effect a cache-key deletion? -/
def isCacheDel : HybridOp → Bool
  | HybridOp.cacheDel _ => true
  | _ => false

/-- C1 fails on the code: in `setUserInfo` and `setAdminConfig` the cache
op that follows the relational write is a `set` (update-in-place with a
TTL), and no cache delete is issued at all. -/
theorem hybrid_write_invalidate_counterexample :
    ((setUserInfoOps true "alice").filter isCacheDel = []
      ∧ HybridOp.cacheSet (getCacheKey "userinfo" ["alice"]) 3600
          ∈ setUserInfoOps true "alice")
    ∧ ((setAdminConfigOps true).filter isCacheDel = []
      ∧ HybridOp.cacheSet (getCacheKey "admin" ["config"]) 1800
          ∈ setAdminConfigOps true) := by
  decide

/-- C1 amended: the relational write is performed first; after it
succeeds the cache entry is updated in place (`setToCache` with TTL
3600 s for user info, 1800 s for admin config) rather than invalidated. -/
theorem hybrid_write_updates_cache_in_place (u : String) :
    setUserInfoOps true u
      = [HybridOp.pgSetUserInfo u,
         HybridOp.cacheSet (getCacheKey "userinfo" [u]) 3600]
    ∧ setAdminConfigOps true
      = [HybridOp.pgSetAdminConfig,
         HybridOp.cacheSet (getCacheKey "admin" ["config"]) 1800] := by
  constructor <;> rfl

/-- Cache keys explicitly deleted by `HybridStorage.deleteUser`
(the `patterns` array at hybrid.db.ts:183-188). -/
def deleteUserCachePatterns (userName : String) : List String :=
  [getCacheKey "user" [userName],
   getCacheKey "user_exists" [userName],
   getCacheKey "login" [userName],
   getCacheKey "users" ["all"]]

/-- Cache keys deleted by `clearUserCache` — the code's own list of all
user-scoped cache keys (hybrid.db.ts:377-382). -/
def clearUserCachePatterns (userName : String) : List String :=
  [getCacheKey "user" [userName],
   getCacheKey "user_exists" [userName],
   getCacheKey "userinfo" [userName],
   getCacheKey "login" [userName]]

/-- Cache key consulted and populated by `HybridStorage.getUserInfo`. -/
def userInfoCacheKey (userName : String) : String :=
  getCacheKey "userinfo" [userName]

theorem data_append_assoc (a b : String) : (a ++ b).data = a.data ++ b.data :=
  String.data_append ..

theorem startsWith_userInfoCacheKey (u : String) :
    startsWithL "cache:".data (userInfoCacheKey u).data = true := by
  have h : (userInfoCacheKey u).data = "cache:".data ++ ("userinfo:".data ++ u.data) := by
    simp [userInfoCacheKey, getCacheKey, joinColon, data_append_assoc,
      List.append_assoc]
  rw [h]
  exact startsWithL_append _ _

/-- C8: `deleteUser` does *not* invalidate the `cache:userinfo:<u>` key
that `getUserInfo` reads — the key is missing from its `patterns` array
(while the code's own `clearUserCache` does list it), and the cache
store's `deleteUser` touches only its own record keys, none of which
are in the `cache:` namespace.  After `deleteUser(u)`, `getUserInfo(u)`
can still serve the deleted user's cached profile until TTL expiry. -/
theorem deleteUser_misses_userinfo_key (u : String) (redisKeys : List String)
    (hredis : ∀ k ∈ redisKeys, startsWithL "cache:".data k.data = false) :
    userInfoCacheKey u ∉ deleteUserCachePatterns u ++ redisKeys
    ∧ userInfoCacheKey u ∈ clearUserCachePatterns u := by
  constructor
  · intro hm
    rcases List.mem_append.mp hm with h | h
    · have hlen : ∀ (a b : String), a = b → a.length = b.length :=
        fun a b hab => hab ▸ rfl
      simp only [deleteUserCachePatterns, userInfoCacheKey, getCacheKey, joinColon,
        List.mem_cons, List.not_mem_nil, or_false] at h
      have e1 : ("userinfo" : String).length = 8 := rfl
      have e2 : ("user" : String).length = 4 := rfl
      have e3 : ("user_exists" : String).length = 11 := rfl
      have e4 : ("login" : String).length = 5 := rfl
      have e5 : ("users" : String).length = 5 := rfl
      have e6 : ("all" : String).length = 3 := rfl
      have e7 : ("cache:" : String).length = 6 := rfl
      have e8 : (":" : String).length = 1 := rfl
      rcases h with h | h | h | h
      · have hl := hlen _ _ h
        simp only [String.length_append] at hl
        omega
      · have hl := hlen _ _ h
        simp only [String.length_append] at hl
        omega
      · have hl := hlen _ _ h
        simp only [String.length_append] at hl
        omega
      · have hl := hlen _ _ h
        simp only [String.length_append] at hl
        have hu0 : u.length = 0 := by omega
        have hue : u = "" := by
          have h2 : u.data.length = 0 := hu0
          have h3 : u.data = [] := List.length_eq_zero.mp h2
          cases u; simp_all
        rw [hue] at h
        revert h; decide
    · have hsw := startsWith_userInfoCacheKey u
      rw [hredis _ h] at hsw
      cases hsw
  · simp [clearUserCachePatterns, userInfoCacheKey]

theorem deleteUser_misses_userinfo_key_witness :
    userInfoCacheKey "alice" ∉ deleteUserCachePatterns "alice" ++ []
    ∧ userInfoCacheKey "alice" ∈ clearUserCachePatterns "alice" :=
  deleteUser_misses_userinfo_key "alice" [] (fun k hk => absurd hk (List.not_mem_nil k))

/-! ### Cache-aside read path (`getFromCache` / `setToCache` / `getUserInfo`) -/

/-- `getFromCache`: when caching is disabled return `null`; otherwise try
the raw cache read, catching any thrown error and degrading it to a
miss (`null`) with a logged warning. -/
def getFromCacheE {E α : Type} (cacheEnabled : Bool)
    (readResult : Except E (Option α)) : Except E (Option α) :=
  if !cacheEnabled then Except.ok none
  else
    match readResult with
    | Except.ok v => Except.ok v
    | Except.error _ => Except.ok none

/-- `setToCache`: when caching is disabled do nothing; otherwise try the
raw cache write, catching any thrown error (logged, never rethrown). -/
def setToCacheE {E : Type} (cacheEnabled : Bool)
    (writeResult : Except E Unit) : Except E Unit :=
  if !cacheEnabled then Except.ok ()
  else
    match writeResult with
    | Except.ok () => Except.ok ()
    | Except.error _ => Except.ok ()

/-- `HybridStorage.getUserInfo`: consult the cache; on a hit return the
cached value; on a miss read PostgreSQL, populate the cache when a row
was found, and return the database value.  `cacheRead`/`cacheWrite` are
the raw backend results (possibly thrown errors); `dbUserInfo` is the
PostgreSQL row. -/
def getUserInfoH {E α : Type} (cacheEnabled : Bool)
    (cacheRead : Except E (Option α)) (dbUserInfo : Option α)
    (cacheWrite : Except E Unit) : Except E (Option α) := do
  let cached ← getFromCacheE cacheEnabled cacheRead
  match cached with
  | some v => pure (some v)
  | none =>
      match dbUserInfo with
      | some info => do
          let _ ← setToCacheE cacheEnabled cacheWrite
          pure (some info)
      | none => pure none

/-- C7: a cache failure never fails a relational-backed read.  When the
cache read throws, `getUserInfo` returns the PostgreSQL value; when the
cache population after a miss throws, it still returns the PostgreSQL
value; and for every combination of backend results the call returns
`ok` — no cache error ever propagates. -/
theorem cache_failure_never_propagates {E α : Type} (ce : Bool) (e e' : E)
    (db : Option α) (cw : Except E Unit) (cr : Except E (Option α)) :
    getUserInfoH ce (Except.error e) db cw = Except.ok db
    ∧ getUserInfoH ce (Except.ok none) db (Except.error e') = Except.ok db
    ∧ ∃ v, getUserInfoH ce cr db cw = Except.ok v := by
  refine ⟨?_, ?_, ?_⟩
  · cases ce <;> cases db <;> cases cw <;>
      simp [getUserInfoH, getFromCacheE, setToCacheE, Except.bind, Bind.bind,
        Pure.pure, Except.pure]
  · cases ce <;> cases db <;>
      simp [getUserInfoH, getFromCacheE, setToCacheE, Except.bind, Bind.bind,
        Pure.pure, Except.pure]
  · rcases cr with e'' | v
    · cases ce <;> cases db <;> cases cw <;>
        simp [getUserInfoH, getFromCacheE, setToCacheE, Except.bind, Bind.bind,
          Pure.pure, Except.pure]
    · cases v <;> cases ce <;> cases db <;> cases cw <;>
        simp [getUserInfoH, getFromCacheE, setToCacheE, Except.bind, Bind.bind,
          Pure.pure, Except.pure]

/-! ## Admin configuration (`setAdminConfig` / `getAdminConfig` in
`postgres.db.ts`)

The `admin_config` table: rows `(id, config_data)` with an auto-increment
id.  `setAdminConfig` runs `DELETE FROM admin_config` then a single
`INSERT`, **not** inside a transaction, wrapped in `withRetry`.
-/

/-- The `admin_config` table plus its id sequence. -/
structure AdminTable where
  rows : List (Nat × String)
  nextId : Nat
deriving DecidableEq

/-- Row with the greatest id (`ORDER BY id DESC LIMIT 1`). -/
def latestRow : List (Nat × String) → Option (Nat × String)
  | [] => none
  | r :: rest =>
      match latestRow rest with
      | none => some r
      | some r' => some (if r'.1 ≥ r.1 then r' else r)

/-- `getAdminConfig`: the most recently inserted document, or none. -/
def getAdminConfig (t : AdminTable) : Option String :=
  (latestRow t.rows).map Prod.snd

/-- One attempt of `setAdminConfig`: `DELETE FROM admin_config`, then
`INSERT INTO admin_config (config_data) VALUES ($1)`.  `insertOk = false`
models the insert throwing after the delete already committed (the two
statements do not share a transaction).  Returns the table state and
whether the attempt succeeded. -/
def setAdminConfigAttempt (t : AdminTable) (cfg : String) (insertOk : Bool) :
    AdminTable × Bool :=
  let t1 : AdminTable := ⟨[], t.nextId⟩
  if insertOk then (⟨[(t1.nextId, cfg)], t1.nextId + 1⟩, true)
  else (t1, false)

/-- `withRetry` around the attempt: up to `fuel` attempts, stopping at
the first success; the table state persists across failed attempts. -/
def setAdminConfigRetry (cfg : String) (insertOk : Nat → Bool) :
    AdminTable → Nat → Nat → AdminTable × Bool
  | t, _, 0 => (t, false)
  | t, i, fuel + 1 =>
      let step := setAdminConfigAttempt t cfg (insertOk i)
      if step.2 then step
      else setAdminConfigRetry cfg insertOk step.1 (i + 1) fuel

/-- C6 fails on the code: starting from a table holding a saved document,
a `setAdminConfig` whose insert fails on every retry attempt leaves the
table empty — `getAdminConfig` then returns no document although one
existed before the call, because the delete and the insert are not an
atomic unit. -/
theorem adminConfig_atomicity_counterexample :
    getAdminConfig ⟨[(1, "old")], 2⟩ = some "old"
    ∧ (setAdminConfigRetry "new" (fun _ => false) ⟨[(1, "old")], 2⟩ 0 3).2 = false
    ∧ getAdminConfig (setAdminConfigRetry "new" (fun _ => false)
        ⟨[(1, "old")], 2⟩ 0 3).1 = none := by
  refine ⟨rfl, rfl, rfl⟩

theorem setAdminConfigRetry_spec (cfg : String) (insertOk : Nat → Bool) :
    ∀ fuel t i,
      ((setAdminConfigRetry cfg insertOk t i fuel).2 = true →
        getAdminConfig (setAdminConfigRetry cfg insertOk t i fuel).1 = some cfg)
      ∧ (1 ≤ fuel → (setAdminConfigRetry cfg insertOk t i fuel).2 = false →
        (setAdminConfigRetry cfg insertOk t i fuel).1.rows = []) := by
  intro fuel
  induction fuel with
  | zero =>
      intro t i
      refine ⟨fun h => ?_, fun h1 _ => absurd h1 (by omega)⟩
      simp [setAdminConfigRetry] at h
  | succ fuel ih =>
      intro t i
      by_cases hok : insertOk i = true
      · constructor
        · intro _
          simp [setAdminConfigRetry, setAdminConfigAttempt, hok, getAdminConfig, latestRow]
        · intro _ hfalse
          simp [setAdminConfigRetry, setAdminConfigAttempt, hok] at hfalse
      · have hattempt : setAdminConfigAttempt t cfg (insertOk i) = (⟨[], t.nextId⟩, false) := by
          simp [setAdminConfigAttempt, hok]
        cases fuel with
        | zero =>
            have hstep : setAdminConfigRetry cfg insertOk t i 1 = (⟨[], t.nextId⟩, false) := by
              simp [setAdminConfigRetry, hattempt]
            rw [hstep]
            refine ⟨fun h => ?_, fun _ _ => rfl⟩
            simp at h
        | succ fuel' =>
            have hrec := ih (⟨[], t.nextId⟩ : AdminTable) (i + 1)
            have hstep : setAdminConfigRetry cfg insertOk t i (fuel' + 1 + 1)
                = setAdminConfigRetry cfg insertOk ⟨[], t.nextId⟩ (i + 1) (fuel' + 1) := by
              simp [setAdminConfigRetry, hattempt]
            rw [hstep]
            exact ⟨hrec.1, fun _ hf => hrec.2 (by omega) hf⟩

/-- C6 amended: `setAdminConfig` replaces the document wholesale by
delete-then-insert with no transaction.  When some attempt's insert
succeeds, `getAdminConfig` afterwards returns exactly the new document;
when every attempt fails after its delete, the table is left empty and
`getAdminConfig` returns none — even if a document existed before. -/
theorem adminConfig_replace_amended (cfg : String) (insertOk : Nat → Bool)
    (t : AdminTable) (fuel : Nat) (h1 : 1 ≤ fuel) :
    ((setAdminConfigRetry cfg insertOk t 0 fuel).2 = true →
      getAdminConfig (setAdminConfigRetry cfg insertOk t 0 fuel).1 = some cfg)
    ∧ ((setAdminConfigRetry cfg insertOk t 0 fuel).2 = false →
      getAdminConfig (setAdminConfigRetry cfg insertOk t 0 fuel).1 = none) := by
  have h := setAdminConfigRetry_spec cfg insertOk fuel t 0
  refine ⟨h.1, fun hfalse => ?_⟩
  have hrows := h.2 h1 hfalse
  simp [getAdminConfig, hrows, latestRow]

theorem adminConfig_replace_amended_witness :
    getAdminConfig (setAdminConfigRetry "new" (fun _ => true)
      ⟨[(1, "old")], 2⟩ 0 3).1 = some "new" :=
  (adminConfig_replace_amended "new" (fun _ => true) ⟨[(1, "old")], 2⟩ 3
    (by omega)).1 rfl

end LunaTV

